import Mathlib

/-!
Shallow embedding of the tagbam program (src/main.rs): read-name decoding,
quality-string synthesis, BQ-token parsing, the quality-map binary cache
codec, the quality-map loader, and the per-record tagging step of the
record loop in main.

Byte streams are modelled as lists of Nat (one byte per element).  Rust
String and str values are modelled as Lean String; Vec u8 as a byte list.
The Rust standard-library UTF-8 codec (String::as_bytes, String::from_utf8)
is modelled by utf8Str and utf8Decode? below, which implement standard
UTF-8 encoding and validating decoding.
-/

abbrev Bytes := List Nat

/-- UTF-8 encoding of one Unicode scalar value: standard UTF-8, exactly the
byte sequence produced by Rust String::as_bytes for this character. -/
def utf8EncodeCharN (c : Char) : Bytes :=
  let n := c.toNat
  if n < 0x80 then [n]
  else if n < 0x800 then [0xc0 + n / 64, 0x80 + n % 64]
  else if n < 0x10000 then [0xe0 + n / 4096, 0x80 + n / 64 % 64, 0x80 + n % 64]
  else [0xf0 + n / 262144, 0x80 + n / 4096 % 64, 0x80 + n / 64 % 64, 0x80 + n % 64]

/-- UTF-8 bytes of a string (Rust String::as_bytes / String::into_bytes). -/
def utf8Str (s : String) : Bytes := s.data.flatMap utf8EncodeCharN

/-- Decode one UTF-8 scalar value from the front of a byte stream, with the
validation performed by Rust String::from_utf8: continuation bytes must be
in 0x80..0xBF, overlong encodings, surrogates and values above 0x10FFFF are
rejected. -/
def utf8DecodeCharN : Bytes → Option (Char × Bytes)
  | [] => none
  | b0 :: t =>
    if b0 < 0x80 then some (Char.ofNat b0, t)
    else if b0 < 0xc0 then none
    else if b0 < 0xe0 then
      match t with
      | b1 :: t1 =>
        if 0x80 ≤ b1 ∧ b1 < 0xc0 then
          if 0x80 ≤ (b0 - 0xc0) * 64 + (b1 - 0x80) then
            some (Char.ofNat ((b0 - 0xc0) * 64 + (b1 - 0x80)), t1)
          else none
        else none
      | [] => none
    else if b0 < 0xf0 then
      match t with
      | b1 :: b2 :: t2 =>
        if (0x80 ≤ b1 ∧ b1 < 0xc0) ∧ (0x80 ≤ b2 ∧ b2 < 0xc0) then
          if 0x800 ≤ (b0 - 0xe0) * 4096 + (b1 - 0x80) * 64 + (b2 - 0x80) ∧
              ¬(0xd800 ≤ (b0 - 0xe0) * 4096 + (b1 - 0x80) * 64 + (b2 - 0x80) ∧
                (b0 - 0xe0) * 4096 + (b1 - 0x80) * 64 + (b2 - 0x80) ≤ 0xdfff) then
            some (Char.ofNat ((b0 - 0xe0) * 4096 + (b1 - 0x80) * 64 + (b2 - 0x80)), t2)
          else none
        else none
      | _ => none
    else if b0 < 0xf8 then
      match t with
      | b1 :: b2 :: b3 :: t3 =>
        if (0x80 ≤ b1 ∧ b1 < 0xc0) ∧ (0x80 ≤ b2 ∧ b2 < 0xc0) ∧ (0x80 ≤ b3 ∧ b3 < 0xc0) then
          if 0x10000 ≤ (b0 - 0xf0) * 262144 + (b1 - 0x80) * 4096 + (b2 - 0x80) * 64 + (b3 - 0x80) ∧
              (b0 - 0xf0) * 262144 + (b1 - 0x80) * 4096 + (b2 - 0x80) * 64 + (b3 - 0x80) < 0x110000 then
            some (Char.ofNat ((b0 - 0xf0) * 262144 + (b1 - 0x80) * 4096 + (b2 - 0x80) * 64 + (b3 - 0x80)), t3)
          else none
        else none
      | _ => none
    else none

/-- Fuelled loop decoding a whole byte stream into characters; each decoded
character consumes at least one byte, so fuel equal to the stream length
suffices. -/
def utf8DecodeGo : Nat → Bytes → Option (List Char)
  | _, [] => some []
  | 0, _ :: _ => none
  | fuel + 1, b :: t =>
    match utf8DecodeCharN (b :: t) with
    | some (c, rest) =>
      match utf8DecodeGo fuel rest with
      | some cs => some (c :: cs)
      | none => none
    | none => none

/-- Validating UTF-8 decode of a whole byte stream (Rust String::from_utf8):
returns the decoded string, or none when the bytes are not valid UTF-8. -/
def utf8Decode? (l : Bytes) : Option String :=
  match utf8DecodeGo l.length l with
  | some cs => some (String.mk cs)
  | none => none

/-- Rust str::split on a single separator character, at the level of the
character list: "a_b" gives ["a","b"], "" gives [""], "_" gives ["",""];
empty segments between adjacent separators are kept. -/
def splitCharList (sep : Char) : List Char → List (List Char)
  | [] => [[]]
  | c :: t =>
    match splitCharList sep t with
    | [] => [[]]
    | h :: r => if c = sep then [] :: h :: r else (c :: h) :: r

/-- Rust str::split on a single separator character, as strings. -/
def splitOnCharS (sep : Char) (s : String) : List String :=
  (splitCharList sep s.data).map String.mk

/-- Rust str::find of a pattern followed by slicing around it: the part of
the text strictly before the first occurrence of the pattern and the part
strictly after it, or none when the pattern does not occur. -/
def splitFirst? (pat : List Char) : List Char → Option (List Char × List Char)
  | [] => if pat = [] then some ([], []) else none
  | c :: t =>
    if pat.isPrefixOf (c :: t) then some ([], (c :: t).drop pat.length)
    else
      match splitFirst? pat t with
      | some (pre, post) => some (c :: pre, post)
      | none => none

/-- Parsed components from a read name in format uuid_i7-i5-CBC_UMI
(struct ReadNameComponents in main.rs). -/
structure ReadNameComponents where
  i7 : String
  i5 : String
  cbc : String
  umi : String
deriving DecidableEq, Repr

/-- Decode error raised by parse_read_name, carrying the offending string
and the actual segment count (the data interpolated into the anyhow bail
messages in main.rs). -/
inductive ParseNameError where
  | underscoreCount (found : Nat) (name : String)
  | hyphenCount (found : Nat) (part : String)
deriving DecidableEq, Repr

/-- parse_read_name from main.rs: split on an underscore and require exactly
three parts; split the middle part on a hyphen and require exactly three
parts; the first part (uuid) is discarded. -/
def parse_read_name (name : String) : Except ParseNameError ReadNameComponents :=
  let parts := splitOnCharS '_' name
  if h : parts.length = 3 then
    let bparts := splitOnCharS '-' (parts.get ⟨1, by omega⟩)
    if h2 : bparts.length = 3 then
      Except.ok
        { i7 := bparts.get ⟨0, by omega⟩
          i5 := bparts.get ⟨1, by omega⟩
          cbc := bparts.get ⟨2, by omega⟩
          umi := parts.get ⟨2, by omega⟩ }
    else Except.error (ParseNameError.hyphenCount bparts.length (parts.get ⟨1, by omega⟩))
  else Except.error (ParseNameError.underscoreCount parts.length name)

/-- perfect_quality from main.rs: the byte 73 (character I, Phred Q40)
repeated length times. -/
def perfect_quality (length : Nat) : Bytes := List.replicate length 73

/-- Parsed barcode/UMI qualities from a BQ token (struct BqQuals). -/
structure BqQuals where
  cb : Bytes
  umi : Option Bytes
deriving DecidableEq, Repr

/-- The 8-byte cache magic, the ASCII bytes of TBQMAP01. -/
def BQ_CACHE_MAGIC : Bytes := [84, 66, 81, 77, 65, 80, 48, 49]

/-- Rust char::is_whitespace: the Unicode White_Space property. -/
def rustIsWhitespace (c : Char) : Bool :=
  let n := c.toNat
  decide ((9 ≤ n ∧ n ≤ 13) ∨ n = 0x20 ∨ n = 0x85 ∨ n = 0xa0 ∨ n = 0x1680 ∨
    (0x2000 ≤ n ∧ n ≤ 0x200a) ∨ n = 0x2028 ∨ n = 0x2029 ∨ n = 0x202f ∨
    n = 0x205f ∨ n = 0x3000)

/-- Rust str::split_whitespace followed by next(): the first maximal run of
non-whitespace characters, or none when the string is empty or all
whitespace (split_whitespace yields no items in that case). -/
def splitWhitespaceNext? (s : String) : Option String :=
  match s.data.dropWhile rustIsWhitespace with
  | [] => none
  | l => some (String.mk (l.takeWhile (fun c => !rustIsWhitespace c)))

/-- Rust str::find of the BQ marker followed by slicing: the suffix of the
header strictly after the first occurrence of the marker, or none when the
marker does not occur. -/
def afterMarker? (header : String) : Option String :=
  match splitFirst? ['|', 'B', 'Q', ':'] header.data with
  | some (_, post) => some (String.mk post)
  | none => none

/-- Rust str::split_once on a colon: the part before the first colon and
everything after it, or none when the string has no colon. -/
def splitOnceColon? (s : String) : Option (String × String) :=
  match splitFirst? [':'] s.data with
  | some (pre, post) => some (String.mk pre, String.mk post)
  | none => none

/-- Accumulator for the label loop in parse_bq_token: the four mutable
Option variables i7, i5, cbc, umi. -/
structure BqFold where
  i7 : Option String
  i5 : Option String
  cbc : Option String
  umi : Option String
deriving DecidableEq, Repr

/-- One iteration of the label loop in parse_bq_token: split the piece on
the first colon (skipping the piece when it has none) and record the value
under a recognized label, ignoring any other label. -/
def bqStep (acc : BqFold) (piece : String) : BqFold :=
  match splitOnceColon? piece with
  | none => acc
  | some (label, qual) =>
    if label = "i7" then { acc with i7 := some qual }
    else if label = "i5" then { acc with i5 := some qual }
    else if label = "CBC" then { acc with cbc := some qual }
    else if label = "UMI" then { acc with umi := some qual }
    else acc

/-- parse_bq_token from main.rs: find the BQ marker, take the first
whitespace-delimited word of the suffix (or the suffix itself when
split_whitespace yields nothing), split it on semicolons, fold the label
loop, and produce an entry only when i7, i5 and CBC were all found. -/
def parse_bq_token (header : String) : Option BqQuals :=
  match afterMarker? header with
  | none => none
  | some suffix =>
    let token := (splitWhitespaceNext? suffix).getD suffix
    let acc := (splitOnCharS ';' token).foldl bqStep ⟨none, none, none, none⟩
    match acc.i7, acc.i5, acc.cbc with
    | some a, some b, some c =>
      some { cb := utf8Str (a ++ b ++ c), umi := acc.umi.map utf8Str }
    | _, _, _ => none

/-- The in-memory quality map (HashMap String BqQuals in main.rs), modelled
as the sequence of its entries; lookup takes the latest binding of a key,
matching HashMap insert overwriting, and the list order doubles as one
possible (arbitrary) iteration order. -/
abbrev BqMap := List (String × BqQuals)

/-- HashMap::get on the modelled map: the latest binding of the key. -/
def bqFind? (m : BqMap) (k : String) : Option BqQuals :=
  m.foldl (fun acc p => if p.1 = k then some p.2 else acc) none

/-- The key derived from a FASTQ header in load_bq_map: strip one leading @
if present, then take the first whitespace-delimited word (the empty string
when there is none). -/
def headerName (header : String) : String :=
  let l := match header.data with
    | '@' :: t => t
    | l => l
  (splitWhitespaceNext? (String.mk l)).getD ""

/-- The loop of load_bq_map: consume a header line plus its three follower
lines per iteration, inserting an entry whenever parse_bq_token produced
one. -/
def load_bq_map_go (acc : BqMap) : List String → BqMap
  | [] => acc
  | header :: rest =>
    let acc2 := match parse_bq_token header with
      | some quals => acc ++ [(headerName header, quals)]
      | none => acc
    match rest with
    | _ :: _ :: _ :: t => load_bq_map_go acc2 t
    | _ => acc2

/-- load_bq_map from main.rs, over the list of lines of the FASTQ source. -/
def load_bq_map (lines : List String) : BqMap := load_bq_map_go [] lines

/-- Little-endian 8-byte encoding of a u64 value (u64::to_le_bytes). -/
def le64 (v : Nat) : Bytes :=
  [v % 256, v / 256 % 256, v / 65536 % 256, v / 16777216 % 256,
   v / 4294967296 % 256, v / 1099511627776 % 256,
   v / 281474976710656 % 256, v / 72057594037927936 % 256]

/-- Little-endian reading of a u64 from 8 bytes (u64::from_le_bytes). -/
def deLE (l : Bytes) : Nat := l.foldr (fun b acc => b + 256 * acc) 0

/-- read_u64 from main.rs: read_exact of 8 bytes (failing when fewer
remain), interpreted little-endian; returns the value and the rest of the
stream. -/
def readU64 (l : Bytes) : Option (Nat × Bytes) :=
  if 8 ≤ l.length then some (deLE (l.take 8), l.drop 8) else none

/-- read_u8 from main.rs: read_exact of one byte. -/
def readU8 (l : Bytes) : Option (Nat × Bytes) :=
  match l with
  | [] => none
  | b :: rest => some (b, rest)

/-- read_bytes from main.rs: a u64 length prefix followed by exactly that
many bytes; fails when the stream runs short. -/
def readBytes (l : Bytes) : Option (Bytes × Bytes) :=
  match readU64 l with
  | none => none
  | some (n, l2) => if n ≤ l2.length then some (l2.take n, l2.drop n) else none

/-- One entry of the cache stream as read by read_bq_cache: name bytes, CB
quality bytes, a one-byte UMI presence flag (UMI qualities present exactly
when the flag is 1), and the name must decode as UTF-8. -/
def readEntry (l : Bytes) : Option ((String × BqQuals) × Bytes) :=
  match readBytes l with
  | none => none
  | some (nameBytes, l2) =>
    match readBytes l2 with
    | none => none
    | some (cb, l3) =>
      match readU8 l3 with
      | none => none
      | some (flag, l4) =>
        let step : Option (Option Bytes × Bytes) :=
          if flag = 1 then
            match readBytes l4 with
            | none => none
            | some (u, l5) => some (some u, l5)
          else some (none, l4)
        match step with
        | none => none
        | some (umi, l6) =>
          match utf8Decode? nameBytes with
          | some name => some ((name, ⟨cb, umi⟩), l6)
          | none => none

/-- The entry loop of read_bq_cache: exactly count entries are read; any
bytes left after them are returned untouched (the code never looks at
them). -/
def readEntries : Nat → Bytes → Option (BqMap × Bytes)
  | 0, l => some ([], l)
  | n + 1, l =>
    match readEntry l with
    | none => none
    | some (e, l2) =>
      match readEntries n l2 with
      | none => none
      | some (es, l3) => some (e :: es, l3)

/-- read_bq_cache from main.rs, over the byte content of the cache file:
read_exact of the 8-byte magic (failing on a shorter stream), compare with
the constant, read the entry count, then read exactly that many entries;
trailing bytes are ignored. -/
def read_bq_cache (l : Bytes) : Option BqMap :=
  if 8 ≤ l.length then
    if l.take 8 = BQ_CACHE_MAGIC then
      match readU64 (l.drop 8) with
      | none => none
      | some (count, l2) =>
        match readEntries count l2 with
        | none => none
        | some (es, _) => some es
    else none
  else none

/-- write_u64 from main.rs: u64::try_from of a Nat (failing at or above
2 to the 64) followed by to_le_bytes. -/
def writeU64? (v : Nat) : Option Bytes :=
  if v < 18446744073709551616 then some (le64 v) else none

/-- write_bytes from main.rs: u64 length prefix followed by the bytes. -/
def writeBytes? (b : Bytes) : Option Bytes :=
  match writeU64? b.length with
  | none => none
  | some p => some (p ++ b)

/-- Encoding of one map entry by write_bq_cache: name bytes, CB bytes, then
either flag byte 1 and UMI bytes or flag byte 0. -/
def encodeEntry? (e : String × BqQuals) : Option Bytes :=
  match writeBytes? (utf8Str e.1) with
  | none => none
  | some nb =>
    match writeBytes? e.2.cb with
    | none => none
    | some cbb =>
      match e.2.umi with
      | some u =>
        match writeBytes? u with
        | none => none
        | some ub => some (nb ++ cbb ++ 1 :: ub)
      | none => some (nb ++ cbb ++ [0])

/-- The entry loop of write_bq_cache over the map iteration sequence. -/
def encodeEntries? : BqMap → Option Bytes
  | [] => some []
  | e :: es =>
    match encodeEntry? e with
    | none => none
    | some b =>
      match encodeEntries? es with
      | none => none
      | some bs => some (b ++ bs)

/-- write_bq_cache from main.rs: magic, u64 entry count, then every entry in
iteration order. -/
def write_bq_cache (m : BqMap) : Option Bytes :=
  match writeU64? m.length with
  | none => none
  | some cnt =>
    match encodeEntries? m with
    | none => none
    | some body => some (BQ_CACHE_MAGIC ++ cnt ++ body)

/-- State of the optional cache file at call time. -/
inductive CacheFile where
  | absent
  | present (bytes : Bytes)
deriving DecidableEq, Repr

/-- Failure cases of load_bq_map_with_cache. -/
inductive LoadError where
  | cacheFormat
  | cacheWrite
deriving DecidableEq, Repr

/-- load_bq_map_with_cache from main.rs: when a cache path was given and the
file exists, decode it and return (errors propagate, the FASTQ source is
never consulted); otherwise build the map from the source, and when a cache
path was given persist the encoded map.  The result pairs the map with the
bytes written to the cache path, if any. -/
def load_bq_map_with_cache (lines : List String) (cache : Option CacheFile) :
    Except LoadError (BqMap × Option Bytes) :=
  match cache with
  | some (CacheFile.present bytes) =>
    match read_bq_cache bytes with
    | some m => Except.ok (m, none)
    | none => Except.error LoadError.cacheFormat
  | some CacheFile.absent =>
    let m := load_bq_map lines
    match write_bq_cache m with
    | some b => Except.ok (m, some b)
    | none => Except.error LoadError.cacheWrite
  | none => Except.ok (load_bq_map lines, none)

/-- The three run counters of main. -/
structure Counters where
  total : Nat
  tagged : Nat
  skipped : Nat
deriving DecidableEq, Repr

/-- A BAM record as the record loop of main observes it: its name, its aux
tags (key and string-typed value bytes, in order), and an abstract frame
value standing for every field the loop never touches (sequence, qualities,
position, flags, alignment). -/
structure BamRecord where
  qname : String
  aux : List (String × Bytes)
  frame : Nat
deriving DecidableEq, Repr

/-- record.aux(tag).is_ok() in main.rs: whether the record carries a tag
with this key. -/
def hasAuxTag (r : BamRecord) (t : String) : Bool :=
  r.aux.any (fun p => p.1 = t)

/-- Fatal failures of the per-record step: an unparseable read name with
tolerance disabled, or the panic of from_utf8(...).unwrap() on quality
bytes that are not valid UTF-8. -/
inductive RunError where
  | parseName (e : ParseNameError)
  | invalidQualUTF8
deriving DecidableEq, Repr

/-- The body of the record loop of main for one record: count it, parse the
name; on success check for existing CB/CY/UB/UY tags and either skip or
compute and append the four tags; on failure skip or abort according to the
skip_unparseable flag. -/
def processRecord (skipUnparseable : Bool) (bqMap : Option BqMap) (c : Counters)
    (record : BamRecord) : Except RunError (BamRecord × Counters) :=
  let c1 : Counters := { c with total := c.total + 1 }
  match parse_read_name record.qname with
  | Except.ok components =>
    if hasAuxTag record "CB" || hasAuxTag record "CY" ||
        hasAuxTag record "UB" || hasAuxTag record "UY" then
      Except.ok (record, { c1 with skipped := c1.skipped + 1 })
    else
      let cell_barcode := components.i7 ++ components.i5 ++ components.cbc
      let quals : Bytes × Bytes :=
        match bqMap with
        | some m =>
          match bqFind? m record.qname with
          | some q => (q.cb, q.umi.getD (perfect_quality (utf8Str components.umi).length))
          | none =>
            (perfect_quality (utf8Str cell_barcode).length,
             perfect_quality (utf8Str components.umi).length)
        | none =>
          (perfect_quality (utf8Str cell_barcode).length,
           perfect_quality (utf8Str components.umi).length)
      match utf8Decode? quals.1, utf8Decode? quals.2 with
      | some _, some _ =>
        Except.ok
          ({ record with
              aux := record.aux ++
                [("CB", utf8Str cell_barcode), ("CY", quals.1),
                 ("UB", utf8Str components.umi), ("UY", quals.2)] },
           { c1 with tagged := c1.tagged + 1 })
      | _, _ => Except.error RunError.invalidQualUTF8
  | Except.error e =>
    if skipUnparseable then
      Except.ok (record, { c1 with skipped := c1.skipped + 1 })
    else Except.error (RunError.parseName e)

/-- The record loop of main: every input record in stream order is processed
and the (possibly annotated) record written out; the first fatal error
aborts the run. -/
def processAll (skipUnparseable : Bool) (bqMap : Option BqMap) :
    List BamRecord → Counters → Except RunError (List BamRecord × Counters)
  | [], c => Except.ok ([], c)
  | r :: rs, c =>
    match processRecord skipUnparseable bqMap c r with
    | Except.error e => Except.error e
    | Except.ok (r2, c2) =>
      match processAll skipUnparseable bqMap rs c2 with
      | Except.error e => Except.error e
      | Except.ok (out, cf) => Except.ok (r2 :: out, cf)

/-- Spec-side frame condition for one record: the output record agrees with
the input record on the name, on every untouched field, and on the aux list
except for appended entries whose keys are among the four target tags. -/
def recordFrameOk (inp out : BamRecord) : Prop :=
  out.qname = inp.qname ∧ out.frame = inp.frame ∧
  ∃ extra, out.aux = inp.aux ++ extra ∧
    ∀ p ∈ extra, p.1 = "CB" ∨ p.1 = "CY" ∨ p.1 = "UB" ∨ p.1 = "UY"

/-- Spec-side reading of the BQ token grammar: the value of the last piece
of the token that splits on a colon into this label and a value (pieces
without a colon are dropped, other labels are filtered out). -/
def lastLabelValue? (pieces : List String) (label : String) : Option String :=
  Option.map Prod.snd
    (((pieces.filterMap splitOnceColon?).filter (fun p => p.1 = label)).getLast?)

/-! ## Helper lemmas about the per-record step -/

theorem processRecord_pretagged (skipU : Bool) (m : Option BqMap) (c : Counters)
    (r : BamRecord) (comps : ReadNameComponents)
    (hp : parse_read_name r.qname = Except.ok comps)
    (ht : (hasAuxTag r "CB" || hasAuxTag r "CY" || hasAuxTag r "UB" || hasAuxTag r "UY") = true) :
    processRecord skipU m c r = Except.ok (r, ⟨c.total + 1, c.tagged, c.skipped + 1⟩) := by
  simp only [processRecord, hp, ht, if_true]

theorem processRecord_unparseable_skip (m : Option BqMap) (c : Counters)
    (r : BamRecord) (e : ParseNameError)
    (hp : parse_read_name r.qname = Except.error e) :
    processRecord true m c r = Except.ok (r, ⟨c.total + 1, c.tagged, c.skipped + 1⟩) := by
  simp only [processRecord, hp, if_true]

theorem processRecord_unparseable_fatal (m : Option BqMap) (c : Counters)
    (r : BamRecord) (e : ParseNameError)
    (hp : parse_read_name r.qname = Except.error e) :
    processRecord false m c r = Except.error (RunError.parseName e) := by
  simp only [processRecord, hp, Bool.false_eq_true, if_false]

/-! ## C1 -/

/-- C1 counterexample: a record that already carries a CB annotation but
whose name does not decode is not skipped when tolerance is disabled — the
run fails fatally, because main parses the read name before it checks for
existing tags.  The input is the record named noUnderscores (one
underscore-segment) carrying tag CB with value byte 65, processed with
skip_unparseable disabled and no quality map. -/
theorem c1_counterexample :
    hasAuxTag ⟨"noUnderscores", [("CB", [65])], 0⟩ "CB" = true ∧
    processRecord false none ⟨0, 0, 0⟩ ⟨"noUnderscores", [("CB", [65])], 0⟩ =
      Except.error (RunError.parseName (ParseNameError.underscoreCount 1 "noUnderscores")) :=
  ⟨rfl, rfl⟩

/-- C1 (amended): the pre-tagged check runs only after the record name has
been decoded successfully.  A record whose name decodes and that carries
any of the four annotation keys is skipped: it passes through unmodified
and only the skip counter (besides the total) is incremented, never a
fatal error.  A pre-tagged record whose name does not decode takes the
undecodable-name path instead: skipped when tolerance is enabled, fatal
when it is disabled. -/
theorem c1_pretagged_after_decode :
    (∀ (skipU : Bool) (m : Option BqMap) (c : Counters) (r : BamRecord)
        (comps : ReadNameComponents),
      parse_read_name r.qname = Except.ok comps →
      (hasAuxTag r "CB" || hasAuxTag r "CY" || hasAuxTag r "UB" || hasAuxTag r "UY") = true →
      processRecord skipU m c r = Except.ok (r, ⟨c.total + 1, c.tagged, c.skipped + 1⟩)) ∧
    (∀ (m : Option BqMap) (c : Counters) (r : BamRecord) (e : ParseNameError),
      parse_read_name r.qname = Except.error e →
      processRecord true m c r = Except.ok (r, ⟨c.total + 1, c.tagged, c.skipped + 1⟩) ∧
      processRecord false m c r = Except.error (RunError.parseName e)) :=
  ⟨fun skipU m c r comps hp ht => processRecord_pretagged skipU m c r comps hp ht,
   fun m c r e hp =>
     ⟨processRecord_unparseable_skip m c r e hp,
      processRecord_unparseable_fatal m c r e hp⟩⟩

/-- Witness for c1_pretagged_after_decode at concrete inputs: a decodable
pre-tagged record is skipped, and an undecodable pre-tagged record is
skipped or fatal according to the tolerance flag. -/
theorem c1_pretagged_after_decode_witness :
    processRecord true none ⟨0, 0, 0⟩ ⟨"u_A-B-C_D", [("UB", [68])], 5⟩ =
      Except.ok (⟨"u_A-B-C_D", [("UB", [68])], 5⟩, ⟨1, 0, 1⟩) ∧
    processRecord true none ⟨0, 0, 0⟩ ⟨"bad", [("CB", [65])], 5⟩ =
      Except.ok (⟨"bad", [("CB", [65])], 5⟩, ⟨1, 0, 1⟩) :=
  ⟨c1_pretagged_after_decode.1 true none ⟨0, 0, 0⟩ ⟨"u_A-B-C_D", [("UB", [68])], 5⟩
      ⟨"A", "B", "C", "D"⟩ rfl rfl,
   (c1_pretagged_after_decode.2 none ⟨0, 0, 0⟩ ⟨"bad", [("CB", [65])], 5⟩
      (ParseNameError.underscoreCount 1 "bad") rfl).1⟩

/-! ## C3 -/

/-- C3: decoding a read name succeeds exactly when splitting on an
underscore yields three segments and splitting the middle segment on a
hyphen yields three sub-segments (zero-length components are accepted, the
grammar being purely structural); on success the components are the three
hyphen sub-segments and the third underscore segment, the first underscore
segment being discarded. -/
theorem c3_parse_read_name_characterization (name : String) :
    ((∃ r, parse_read_name name = Except.ok r) ↔
      ((splitOnCharS '_' name).length = 3 ∧
        (splitOnCharS '-' ((splitOnCharS '_' name).getD 1 "")).length = 3)) ∧
    (∀ r, parse_read_name name = Except.ok r →
      r.i7 = (splitOnCharS '-' ((splitOnCharS '_' name).getD 1 "")).getD 0 "" ∧
      r.i5 = (splitOnCharS '-' ((splitOnCharS '_' name).getD 1 "")).getD 1 "" ∧
      r.cbc = (splitOnCharS '-' ((splitOnCharS '_' name).getD 1 "")).getD 2 "" ∧
      r.umi = (splitOnCharS '_' name).getD 2 "") := by
  by_cases h : (splitOnCharS '_' name).length = 3
  case neg =>
    have herr : parse_read_name name =
        Except.error (ParseNameError.underscoreCount (splitOnCharS '_' name).length name) := by
      simp [parse_read_name, h]
    refine ⟨⟨fun ⟨r, hr⟩ => ?_, fun hh => absurd hh.1 h⟩, fun r hr => ?_⟩
    · rw [herr] at hr; exact absurd hr (by simp)
    · rw [herr] at hr; exact absurd hr (by simp)
  case pos =>
    rcases List.length_eq_three.mp h with ⟨u, mid, um, hparts⟩
    have hmid : (splitOnCharS '_' name).getD 1 "" = mid := by rw [hparts]; rfl
    by_cases h2 : (splitOnCharS '-' mid).length = 3
    case pos =>
      rcases List.length_eq_three.mp h2 with ⟨a, b, c, hb⟩
      have heq : parse_read_name name = Except.ok ⟨a, b, c, um⟩ := by
        simp [parse_read_name, hparts, hb]
      refine ⟨⟨fun _ => ⟨h, by rw [hmid]; exact h2⟩, fun _ => ⟨_, heq⟩⟩, fun r hr => ?_⟩
      rw [heq] at hr
      injection hr with h3
      subst h3
      rw [hmid, hb, hparts]
      exact ⟨rfl, rfl, rfl, rfl⟩
    case neg =>
      have herr : parse_read_name name =
          Except.error (ParseNameError.hyphenCount (splitOnCharS '-' mid).length mid) := by
        simp [parse_read_name, hparts, h2]
      refine ⟨⟨fun ⟨r, hr⟩ => ?_, fun hh => absurd (hmid ▸ hh.2) h2⟩, fun r hr => ?_⟩
      · rw [herr] at hr; exact absurd hr (by simp)
      · rw [herr] at hr; exact absurd hr (by simp)

/-- Witness for c3_parse_read_name_characterization: the example name from
the main.rs doc comment decodes to its four components, and a name whose
components are all empty strings still decodes. -/
theorem c3_parse_read_name_witness :
    parse_read_name "2efc6b85-aa0d-4c1d-ab33-bf5f442fe47c_TTGGCTCC-GGTCGGCG-ACTTGA_GAAGCAGT" =
      Except.ok ⟨"TTGGCTCC", "GGTCGGCG", "ACTTGA", "GAAGCAGT"⟩ ∧
    parse_read_name "_--_" = Except.ok ⟨"", "", "", ""⟩ ∧
    (∃ r, parse_read_name "_--_" = Except.ok r) := by
  refine ⟨rfl, rfl, ?_⟩
  exact (c3_parse_read_name_characterization "_--_").1.mpr ⟨rfl, rfl⟩

/-! ## Record loop invariants -/

theorem processRecord_ok_inv (skipU : Bool) (m : Option BqMap) (c : Counters)
    (r r' : BamRecord) (c' : Counters)
    (h : processRecord skipU m c r = Except.ok (r', c')) :
    recordFrameOk r r' ∧ c'.total = c.total + 1 ∧
      ((c'.tagged = c.tagged + 1 ∧ c'.skipped = c.skipped) ∨
        (c'.tagged = c.tagged ∧ c'.skipped = c.skipped + 1)) := by
  simp only [processRecord] at h
  split at h
  case h_1 comps heq =>
    split at h
    case isTrue =>
      injection h with h1
      injection h1 with h2 h3
      subst h2; subst h3
      exact ⟨⟨rfl, rfl, [], by simp, by simp⟩, rfl, Or.inr ⟨rfl, rfl⟩⟩
    case isFalse =>
      split at h
      case h_1 =>
        injection h with h1
        injection h1 with h2 h3
        subst h2; subst h3
        refine ⟨⟨rfl, rfl, _, rfl, ?_⟩, rfl, Or.inl ⟨rfl, rfl⟩⟩
        intro p hp
        simp only [List.mem_cons, List.not_mem_nil, or_false] at hp
        rcases hp with rfl | rfl | rfl | rfl
        · exact Or.inl rfl
        · exact Or.inr (Or.inl rfl)
        · exact Or.inr (Or.inr (Or.inl rfl))
        · exact Or.inr (Or.inr (Or.inr rfl))
      case h_2 => exact absurd h (by simp)
  case h_2 e heq =>
    split at h
    case isTrue =>
      injection h with h1
      injection h1 with h2 h3
      subst h2; subst h3
      exact ⟨⟨rfl, rfl, [], by simp, by simp⟩, rfl, Or.inr ⟨rfl, rfl⟩⟩
    case isFalse => exact absurd h (by simp)

theorem processAll_ok_inv (skipU : Bool) (m : Option BqMap) :
    ∀ (recs : List BamRecord) (c : Counters) (out : List BamRecord) (cf : Counters),
      processAll skipU m recs c = Except.ok (out, cf) →
      List.Forall₂ recordFrameOk recs out ∧
        cf.total + c.tagged + c.skipped = c.total + cf.tagged + cf.skipped
  | [], c, out, cf, h => by
    simp only [processAll] at h
    injection h with h1
    injection h1 with h2 h3
    subst h2; subst h3
    exact ⟨List.Forall₂.nil, by omega⟩
  | r :: rs, c, out, cf, h => by
    simp only [processAll] at h
    split at h
    case h_1 => exact absurd h (by simp)
    case h_2 r2 c2 heq =>
      split at h
      case h_1 => exact absurd h (by simp)
      case h_2 out2 cf2 heq2 =>
        injection h with h1
        injection h1 with h2 h3
        subst h2; subst h3
        have hstep := processRecord_ok_inv skipU m c r r2 c2 heq
        have hrest := processAll_ok_inv skipU m rs c2 out2 cf2 heq2
        exact ⟨List.Forall₂.cons hstep.1 hrest.1, by
          rcases hstep.2.2 with ⟨h4, h5⟩ | ⟨h4, h5⟩ <;> omega⟩

/-! ## C9 -/

/-- C9: on every run of the record loop that completes, the output stream
holds exactly one record per input record in the original order, and each
output record can differ from its input record only by aux entries appended
under the four keys CB, CY, UB, UY — the name, the untouched frame fields
and all pre-existing aux entries are unchanged. -/
theorem c9_stream_frame (skipU : Bool) (m : Option BqMap) (recs : List BamRecord)
    (c : Counters) (out : List BamRecord) (cf : Counters)
    (h : processAll skipU m recs c = Except.ok (out, cf)) :
    out.length = recs.length ∧ List.Forall₂ recordFrameOk recs out := by
  have hinv := processAll_ok_inv skipU m recs c out cf h
  exact ⟨hinv.1.length_eq.symm, hinv.1⟩

/-- Witness for c9_stream_frame: a two-record run (one tagged, one skipped
as pre-tagged) completes with two output records in order satisfying the
frame condition. -/
theorem c9_stream_frame_witness :
    (processAll false none
        [⟨"u_A-B-C_D", [], 1⟩, ⟨"u_A-B-C_D", [("CY", [73])], 2⟩] ⟨0, 0, 0⟩ =
      Except.ok
        ([⟨"u_A-B-C_D", [("CB", [65, 66, 67]), ("CY", [73, 73, 73]), ("UB", [68]), ("UY", [73])], 1⟩,
          ⟨"u_A-B-C_D", [("CY", [73])], 2⟩], ⟨2, 1, 1⟩)) ∧
    ([⟨"u_A-B-C_D", [("CB", [65, 66, 67]), ("CY", [73, 73, 73]), ("UB", [68]), ("UY", [73])], 1⟩,
      ⟨"u_A-B-C_D", [("CY", [73])], 2⟩] : List BamRecord).length =
      ([⟨"u_A-B-C_D", [], 1⟩, ⟨"u_A-B-C_D", [("CY", [73])], 2⟩] : List BamRecord).length ∧
    List.Forall₂ recordFrameOk
      [⟨"u_A-B-C_D", [], 1⟩, ⟨"u_A-B-C_D", [("CY", [73])], 2⟩]
      [⟨"u_A-B-C_D", [("CB", [65, 66, 67]), ("CY", [73, 73, 73]), ("UB", [68]), ("UY", [73])], 1⟩,
        ⟨"u_A-B-C_D", [("CY", [73])], 2⟩] := by
  have h : processAll false none
      [⟨"u_A-B-C_D", [], 1⟩, ⟨"u_A-B-C_D", [("CY", [73])], 2⟩] ⟨0, 0, 0⟩ =
      Except.ok
        ([⟨"u_A-B-C_D", [("CB", [65, 66, 67]), ("CY", [73, 73, 73]), ("UB", [68]), ("UY", [73])], 1⟩,
          ⟨"u_A-B-C_D", [("CY", [73])], 2⟩], ⟨2, 1, 1⟩) := rfl
  have h2 := c9_stream_frame false none _ _ _ _ h
  exact ⟨h, h2.1, h2.2⟩

/-! ## C10 -/

/-- C10: every successfully processed record increments the total counter by
exactly one and exactly one of the tagged and skipped counters by one (so
all three counters are monotonically non-decreasing through the loop), and
a run of the loop that completes from zeroed counters ends with
total = tagged + skipped. -/
theorem c10_counter_invariant :
    (∀ (skipU : Bool) (m : Option BqMap) (c : Counters) (r r' : BamRecord) (c' : Counters),
      processRecord skipU m c r = Except.ok (r', c') →
      c'.total = c.total + 1 ∧
        ((c'.tagged = c.tagged + 1 ∧ c'.skipped = c.skipped) ∨
          (c'.tagged = c.tagged ∧ c'.skipped = c.skipped + 1)) ∧
        c.total ≤ c'.total ∧ c.tagged ≤ c'.tagged ∧ c.skipped ≤ c'.skipped) ∧
    (∀ (skipU : Bool) (m : Option BqMap) (recs : List BamRecord)
        (out : List BamRecord) (cf : Counters),
      processAll skipU m recs ⟨0, 0, 0⟩ = Except.ok (out, cf) →
      cf.total = cf.tagged + cf.skipped) := by
  constructor
  · intro skipU m c r r' c' h
    have hinv := (processRecord_ok_inv skipU m c r r' c' h).2
    rcases hinv.2 with ⟨h1, h2⟩ | ⟨h1, h2⟩ <;>
      exact ⟨hinv.1, by tauto, by omega, by omega, by omega⟩
  · intro skipU m recs out cf h
    have hinv := (processAll_ok_inv skipU m recs ⟨0, 0, 0⟩ out cf h).2
    simp only at hinv
    omega

/-- Witness for c10_counter_invariant at concrete inputs: a tagged record
increments total and tagged, and a completed three-record run (tagged,
skipped, skipped) ends with total 3 = tagged 1 + skipped 2. -/
theorem c10_counter_invariant_witness :
    (⟨8, 4, 3⟩ : Counters).total = 7 + 1 ∧
    (⟨3, 1, 2⟩ : Counters).total = (⟨3, 1, 2⟩ : Counters).tagged + (⟨3, 1, 2⟩ : Counters).skipped := by
  have h1 := (c10_counter_invariant.1 true none ⟨7, 3, 3⟩ ⟨"u_A-B-C_D", [], 0⟩
    ⟨"u_A-B-C_D", [("CB", [65, 66, 67]), ("CY", [73, 73, 73]), ("UB", [68]), ("UY", [73])], 0⟩
    ⟨8, 4, 3⟩ rfl).1
  have h2 := c10_counter_invariant.2 true none
    [⟨"u_A-B-C_D", [], 0⟩, ⟨"u_A-B-C_D", [("CB", [65])], 1⟩, ⟨"bad", [], 2⟩]
    [⟨"u_A-B-C_D", [("CB", [65, 66, 67]), ("CY", [73, 73, 73]), ("UB", [68]), ("UY", [73])], 0⟩,
      ⟨"u_A-B-C_D", [("CB", [65])], 1⟩, ⟨"bad", [], 2⟩]
    ⟨3, 1, 2⟩ rfl
  exact ⟨h1, h2⟩

/-! ## Synthesized qualities decode as UTF-8 -/

theorem utf8DecodeCharN_ascii (b : Nat) (t : Bytes) (h : b < 0x80) :
    utf8DecodeCharN (b :: t) = some (Char.ofNat b, t) := by
  simp [utf8DecodeCharN, h]

theorem utf8DecodeGo_replicate73 :
    ∀ (n fuel : Nat), n ≤ fuel →
      utf8DecodeGo fuel (List.replicate n 73) = some (List.replicate n 'I')
  | 0, fuel, _ => by simp [List.replicate, utf8DecodeGo]
  | n + 1, 0, h => absurd h (by omega)
  | n + 1, fuel + 1, h => by
    rw [List.replicate, utf8DecodeGo, utf8DecodeCharN_ascii 73 _ (by omega)]
    simp only [utf8DecodeGo_replicate73 n fuel (by omega)]
    rfl

theorem utf8Decode?_perfect (n : Nat) :
    utf8Decode? (perfect_quality n) = some (String.mk (List.replicate n 'I')) := by
  unfold utf8Decode? perfect_quality
  rw [List.length_replicate, utf8DecodeGo_replicate73 n n (Nat.le_refl n)]

/-! ## Tagged-branch behavior of the per-record step -/

theorem processRecord_tagged_noMap (skipU : Bool) (c : Counters) (r : BamRecord)
    (comps : ReadNameComponents)
    (hp : parse_read_name r.qname = Except.ok comps)
    (ht : (hasAuxTag r "CB" || hasAuxTag r "CY" || hasAuxTag r "UB" || hasAuxTag r "UY") = false) :
    processRecord skipU none c r = Except.ok
      ({ r with aux := r.aux ++
          [("CB", utf8Str (comps.i7 ++ comps.i5 ++ comps.cbc)),
           ("CY", perfect_quality (utf8Str (comps.i7 ++ comps.i5 ++ comps.cbc)).length),
           ("UB", utf8Str comps.umi),
           ("UY", perfect_quality (utf8Str comps.umi).length)] },
       ⟨c.total + 1, c.tagged + 1, c.skipped⟩) := by
  simp only [processRecord, hp, ht, Bool.false_eq_true, if_false, utf8Decode?_perfect]

theorem processRecord_tagged_noEntry (skipU : Bool) (m : BqMap) (c : Counters)
    (r : BamRecord) (comps : ReadNameComponents)
    (hp : parse_read_name r.qname = Except.ok comps)
    (ht : (hasAuxTag r "CB" || hasAuxTag r "CY" || hasAuxTag r "UB" || hasAuxTag r "UY") = false)
    (hfind : bqFind? m r.qname = none) :
    processRecord skipU (some m) c r = Except.ok
      ({ r with aux := r.aux ++
          [("CB", utf8Str (comps.i7 ++ comps.i5 ++ comps.cbc)),
           ("CY", perfect_quality (utf8Str (comps.i7 ++ comps.i5 ++ comps.cbc)).length),
           ("UB", utf8Str comps.umi),
           ("UY", perfect_quality (utf8Str comps.umi).length)] },
       ⟨c.total + 1, c.tagged + 1, c.skipped⟩) := by
  simp only [processRecord, hp, ht, Bool.false_eq_true, if_false, hfind, utf8Decode?_perfect]

theorem processRecord_tagged_entry_umi (skipU : Bool) (m : BqMap) (c : Counters)
    (r : BamRecord) (comps : ReadNameComponents) (q : BqQuals) (u : Bytes)
    (scb su : String)
    (hp : parse_read_name r.qname = Except.ok comps)
    (ht : (hasAuxTag r "CB" || hasAuxTag r "CY" || hasAuxTag r "UB" || hasAuxTag r "UY") = false)
    (hfind : bqFind? m r.qname = some q)
    (hu : q.umi = some u)
    (hcb2 : utf8Decode? q.cb = some scb)
    (hu2 : utf8Decode? u = some su) :
    processRecord skipU (some m) c r = Except.ok
      ({ r with aux := r.aux ++
          [("CB", utf8Str (comps.i7 ++ comps.i5 ++ comps.cbc)),
           ("CY", q.cb),
           ("UB", utf8Str comps.umi),
           ("UY", u)] },
       ⟨c.total + 1, c.tagged + 1, c.skipped⟩) := by
  simp only [processRecord, hp, ht, Bool.false_eq_true, if_false, hfind, hu,
    Option.getD_some, hcb2, hu2]

theorem processRecord_tagged_entry_noUmi (skipU : Bool) (m : BqMap) (c : Counters)
    (r : BamRecord) (comps : ReadNameComponents) (q : BqQuals) (scb : String)
    (hp : parse_read_name r.qname = Except.ok comps)
    (ht : (hasAuxTag r "CB" || hasAuxTag r "CY" || hasAuxTag r "UB" || hasAuxTag r "UY") = false)
    (hfind : bqFind? m r.qname = some q)
    (hu : q.umi = none)
    (hcb2 : utf8Decode? q.cb = some scb) :
    processRecord skipU (some m) c r = Except.ok
      ({ r with aux := r.aux ++
          [("CB", utf8Str (comps.i7 ++ comps.i5 ++ comps.cbc)),
           ("CY", q.cb),
           ("UB", utf8Str comps.umi),
           ("UY", perfect_quality (utf8Str comps.umi).length)] },
       ⟨c.total + 1, c.tagged + 1, c.skipped⟩) := by
  simp only [processRecord, hp, ht, Bool.false_eq_true, if_false, hfind, hu,
    Option.getD_none, hcb2, utf8Decode?_perfect]

/-! ## C2 -/

/-- C2: for a record whose name decodes and that carries none of the four
annotation keys, the tagger appends CB = i7 ++ i5 ++ cbc and UB = umi; with
no quality map, or a map without an entry for the exact record name, CY and
UY are synthesized strings of byte length equal to the byte lengths of the
barcode and the UMI; with a map entry, CY is the entry's barcode-quality
bytes and UY is the entry's UMI-quality bytes when present, else a
synthesized string of the UMI's byte length.  Synthesized strings consist
entirely of the byte 73 (the character I), requested length 0 giving the
empty string.  The map-entry cases carry the side condition that the entry
bytes are valid UTF-8, without which the Rust code panics in
from_utf8(...).unwrap() instead of tagging. -/
theorem c2_tag_values :
    (∀ n, (perfect_quality n).length = n ∧ (∀ b ∈ perfect_quality n, b = 73) ∧
      perfect_quality 0 = []) ∧
    (∀ (skipU : Bool) (c : Counters) (r : BamRecord) (comps : ReadNameComponents),
      parse_read_name r.qname = Except.ok comps →
      (hasAuxTag r "CB" || hasAuxTag r "CY" || hasAuxTag r "UB" || hasAuxTag r "UY") = false →
      processRecord skipU none c r = Except.ok
        ({ r with aux := r.aux ++
            [("CB", utf8Str (comps.i7 ++ comps.i5 ++ comps.cbc)),
             ("CY", perfect_quality (utf8Str (comps.i7 ++ comps.i5 ++ comps.cbc)).length),
             ("UB", utf8Str comps.umi),
             ("UY", perfect_quality (utf8Str comps.umi).length)] },
         ⟨c.total + 1, c.tagged + 1, c.skipped⟩)) ∧
    (∀ (skipU : Bool) (m : BqMap) (c : Counters) (r : BamRecord) (comps : ReadNameComponents),
      parse_read_name r.qname = Except.ok comps →
      (hasAuxTag r "CB" || hasAuxTag r "CY" || hasAuxTag r "UB" || hasAuxTag r "UY") = false →
      bqFind? m r.qname = none →
      processRecord skipU (some m) c r = Except.ok
        ({ r with aux := r.aux ++
            [("CB", utf8Str (comps.i7 ++ comps.i5 ++ comps.cbc)),
             ("CY", perfect_quality (utf8Str (comps.i7 ++ comps.i5 ++ comps.cbc)).length),
             ("UB", utf8Str comps.umi),
             ("UY", perfect_quality (utf8Str comps.umi).length)] },
         ⟨c.total + 1, c.tagged + 1, c.skipped⟩)) ∧
    (∀ (skipU : Bool) (m : BqMap) (c : Counters) (r : BamRecord) (comps : ReadNameComponents)
        (q : BqQuals) (u : Bytes) (scb su : String),
      parse_read_name r.qname = Except.ok comps →
      (hasAuxTag r "CB" || hasAuxTag r "CY" || hasAuxTag r "UB" || hasAuxTag r "UY") = false →
      bqFind? m r.qname = some q → q.umi = some u →
      utf8Decode? q.cb = some scb → utf8Decode? u = some su →
      processRecord skipU (some m) c r = Except.ok
        ({ r with aux := r.aux ++
            [("CB", utf8Str (comps.i7 ++ comps.i5 ++ comps.cbc)),
             ("CY", q.cb),
             ("UB", utf8Str comps.umi),
             ("UY", u)] },
         ⟨c.total + 1, c.tagged + 1, c.skipped⟩)) ∧
    (∀ (skipU : Bool) (m : BqMap) (c : Counters) (r : BamRecord) (comps : ReadNameComponents)
        (q : BqQuals) (scb : String),
      parse_read_name r.qname = Except.ok comps →
      (hasAuxTag r "CB" || hasAuxTag r "CY" || hasAuxTag r "UB" || hasAuxTag r "UY") = false →
      bqFind? m r.qname = some q → q.umi = none →
      utf8Decode? q.cb = some scb →
      processRecord skipU (some m) c r = Except.ok
        ({ r with aux := r.aux ++
            [("CB", utf8Str (comps.i7 ++ comps.i5 ++ comps.cbc)),
             ("CY", q.cb),
             ("UB", utf8Str comps.umi),
             ("UY", perfect_quality (utf8Str comps.umi).length)] },
         ⟨c.total + 1, c.tagged + 1, c.skipped⟩)) :=
  ⟨fun n => ⟨List.length_replicate n 73, fun _ hb => List.eq_of_mem_replicate hb, rfl⟩,
   fun skipU c r comps hp ht => processRecord_tagged_noMap skipU c r comps hp ht,
   fun skipU m c r comps hp ht hfind =>
     processRecord_tagged_noEntry skipU m c r comps hp ht hfind,
   fun skipU m c r comps q u scb su hp ht hfind hu hcb2 hu2 =>
     processRecord_tagged_entry_umi skipU m c r comps q u scb su hp ht hfind hu hcb2 hu2,
   fun skipU m c r comps q scb hp ht hfind hu hcb2 =>
     processRecord_tagged_entry_noUmi skipU m c r comps q scb hp ht hfind hu hcb2⟩

/-- Witness for c2_tag_values at concrete inputs: the end-to-end example of
the spec without a quality map, and a map-backed record whose entry carries
both qualities. -/
theorem c2_tag_values_witness :
    processRecord false none ⟨0, 0, 0⟩
        ⟨"2efc6b85-aa0d-4c1d-ab33-bf5f442fe47c_TTGGCTCC-GGTCGGCG-ACTTGA_GAAGCAGT", [], 0⟩ =
      Except.ok
        (⟨"2efc6b85-aa0d-4c1d-ab33-bf5f442fe47c_TTGGCTCC-GGTCGGCG-ACTTGA_GAAGCAGT",
          [("CB", utf8Str "TTGGCTCCGGTCGGCGACTTGA"),
           ("CY", perfect_quality 22),
           ("UB", utf8Str "GAAGCAGT"),
           ("UY", perfect_quality 8)], 0⟩,
         ⟨1, 1, 0⟩) ∧
    processRecord false (some [("u_A-B-C_D", ⟨[49, 50, 51], some [88, 89, 90]⟩)]) ⟨0, 0, 0⟩
        ⟨"u_A-B-C_D", [], 0⟩ =
      Except.ok
        (⟨"u_A-B-C_D",
          [("CB", utf8Str "ABC"), ("CY", [49, 50, 51]),
           ("UB", utf8Str "D"), ("UY", [88, 89, 90])], 0⟩,
         ⟨1, 1, 0⟩) := by
  constructor
  · exact c2_tag_values.2.1 false ⟨0, 0, 0⟩
      ⟨"2efc6b85-aa0d-4c1d-ab33-bf5f442fe47c_TTGGCTCC-GGTCGGCG-ACTTGA_GAAGCAGT", [], 0⟩
      ⟨"TTGGCTCC", "GGTCGGCG", "ACTTGA", "GAAGCAGT"⟩ rfl rfl
  · exact (c2_tag_values.2.2.2.1 false [("u_A-B-C_D", ⟨[49, 50, 51], some [88, 89, 90]⟩)]
      ⟨0, 0, 0⟩ ⟨"u_A-B-C_D", [], 0⟩ ⟨"A", "B", "C", "D"⟩
      ⟨[49, 50, 51], some [88, 89, 90]⟩ [88, 89, 90] "123" "XYZ"
      rfl rfl rfl rfl rfl rfl)

/-! ## C8 -/

/-- C8: when a cache path is given and the file exists, the quality map
comes solely from decoding the cache — the result does not depend on the
quality source at all — and a cache decode failure fails the load with no
fallback to re-parsing the source; when the cache path is given but the
file does not exist, the map is built by parsing the source and its
encoding is persisted to the cache path before returning. -/
theorem c8_cache_precedence :
    (∀ (lines lines2 : List String) (bytes : Bytes),
      load_bq_map_with_cache lines (some (CacheFile.present bytes)) =
        load_bq_map_with_cache lines2 (some (CacheFile.present bytes))) ∧
    (∀ (lines : List String) (bytes : Bytes) (m : BqMap) (o : Option Bytes),
      load_bq_map_with_cache lines (some (CacheFile.present bytes)) = Except.ok (m, o) →
      read_bq_cache bytes = some m ∧ o = none) ∧
    (∀ (lines : List String) (bytes : Bytes),
      read_bq_cache bytes = none →
      load_bq_map_with_cache lines (some (CacheFile.present bytes)) =
        Except.error LoadError.cacheFormat) ∧
    (∀ (lines : List String) (m : BqMap) (o : Option Bytes),
      load_bq_map_with_cache lines (some CacheFile.absent) = Except.ok (m, o) →
      m = load_bq_map lines ∧ ∃ b, write_bq_cache m = some b ∧ o = some b) := by
  refine ⟨fun lines lines2 bytes => rfl, fun lines bytes m o h => ?_,
    fun lines bytes h => ?_, fun lines m o h => ?_⟩
  · simp only [load_bq_map_with_cache] at h
    split at h
    case h_1 m2 heq =>
      injection h with h1
      injection h1 with h2 h3
      subst h2; subst h3
      exact ⟨heq, rfl⟩
    case h_2 => exact absurd h (by simp)
  · simp only [load_bq_map_with_cache, h]
  · simp only [load_bq_map_with_cache] at h
    split at h
    case h_1 b heq =>
      injection h with h1
      injection h1 with h2 h3
      subst h2; subst h3
      exact ⟨rfl, b, heq, rfl⟩
    case h_2 => exact absurd h (by simp)

/-- Witness for c8_cache_precedence at concrete inputs: a present one-entry
cache is decoded (yielding a map independent of the given source lines),
and an absent cache file makes the loader parse the source and report the
encoded map as written. -/
theorem c8_cache_precedence_witness :
    read_bq_cache (BQ_CACHE_MAGIC ++ le64 1 ++ le64 2 ++ [114, 49] ++ le64 1 ++ [65] ++ [0]) =
      some [("r1", ⟨[65], none⟩)] ∧
    load_bq_map_with_cache ["@r1 x|BQ:i7:1;i5:2;CBC:3", "A", "+", "I"] (some CacheFile.absent) =
      Except.ok ([("r1", ⟨[49, 50, 51], none⟩)],
        some (BQ_CACHE_MAGIC ++ le64 1 ++ le64 2 ++ [114, 49] ++ le64 3 ++ [49, 50, 51] ++ [0])) ∧
    load_bq_map ["@r1 x|BQ:i7:1;i5:2;CBC:3", "A", "+", "I"] = [("r1", ⟨[49, 50, 51], none⟩)] := by
  refine ⟨?_, by rfl, ?_⟩
  · exact (c8_cache_precedence.2.1 []
      (BQ_CACHE_MAGIC ++ le64 1 ++ le64 2 ++ [114, 49] ++ le64 1 ++ [65] ++ [0])
      [("r1", ⟨[65], none⟩)] none (by rfl)).1
  · exact (c8_cache_precedence.2.2.2 ["@r1 x|BQ:i7:1;i5:2;CBC:3", "A", "+", "I"]
      [("r1", ⟨[49, 50, 51], none⟩)]
      (some (BQ_CACHE_MAGIC ++ le64 1 ++ le64 2 ++ [114, 49] ++ le64 3 ++ [49, 50, 51] ++ [0]))
      (by rfl)).1.symm

/-! ## UTF-8 codec roundtrip -/

theorem utf8DecodeCharN_two (b0 b1 : Nat) (t : Bytes)
    (h0 : 0xc0 ≤ b0 ∧ b0 < 0xe0) (h1 : 0x80 ≤ b1 ∧ b1 < 0xc0)
    (hr : 0x80 ≤ (b0 - 0xc0) * 64 + (b1 - 0x80)) :
    utf8DecodeCharN (b0 :: b1 :: t) =
      some (Char.ofNat ((b0 - 0xc0) * 64 + (b1 - 0x80)), t) := by
  simp only [utf8DecodeCharN]
  rw [if_neg (by omega), if_neg (by omega), if_pos (by omega)]
  rw [if_pos h1, if_pos hr]

theorem utf8DecodeCharN_three (b0 b1 b2 : Nat) (t : Bytes)
    (h0 : 0xe0 ≤ b0 ∧ b0 < 0xf0) (h1 : 0x80 ≤ b1 ∧ b1 < 0xc0) (h2 : 0x80 ≤ b2 ∧ b2 < 0xc0)
    (hr : 0x800 ≤ (b0 - 0xe0) * 4096 + (b1 - 0x80) * 64 + (b2 - 0x80) ∧
      ¬(0xd800 ≤ (b0 - 0xe0) * 4096 + (b1 - 0x80) * 64 + (b2 - 0x80) ∧
        (b0 - 0xe0) * 4096 + (b1 - 0x80) * 64 + (b2 - 0x80) ≤ 0xdfff)) :
    utf8DecodeCharN (b0 :: b1 :: b2 :: t) =
      some (Char.ofNat ((b0 - 0xe0) * 4096 + (b1 - 0x80) * 64 + (b2 - 0x80)), t) := by
  simp only [utf8DecodeCharN]
  rw [if_neg (by omega), if_neg (by omega), if_neg (by omega), if_pos (by omega)]
  rw [if_pos ⟨h1, h2⟩, if_pos hr]

theorem utf8DecodeCharN_four (b0 b1 b2 b3 : Nat) (t : Bytes)
    (h0 : 0xf0 ≤ b0 ∧ b0 < 0xf8) (h1 : 0x80 ≤ b1 ∧ b1 < 0xc0)
    (h2 : 0x80 ≤ b2 ∧ b2 < 0xc0) (h3 : 0x80 ≤ b3 ∧ b3 < 0xc0)
    (hr : 0x10000 ≤ (b0 - 0xf0) * 262144 + (b1 - 0x80) * 4096 + (b2 - 0x80) * 64 + (b3 - 0x80) ∧
      (b0 - 0xf0) * 262144 + (b1 - 0x80) * 4096 + (b2 - 0x80) * 64 + (b3 - 0x80) < 0x110000) :
    utf8DecodeCharN (b0 :: b1 :: b2 :: b3 :: t) =
      some (Char.ofNat
        ((b0 - 0xf0) * 262144 + (b1 - 0x80) * 4096 + (b2 - 0x80) * 64 + (b3 - 0x80)), t) := by
  simp only [utf8DecodeCharN]
  rw [if_neg (by omega), if_neg (by omega), if_neg (by omega), if_neg (by omega),
    if_pos (by omega)]
  rw [if_pos ⟨h1, h2, h3⟩, if_pos hr]

theorem utf8DecodeCharN_encodeCharN (c : Char) (rest : Bytes) :
    utf8DecodeCharN (utf8EncodeCharN c ++ rest) = some (c, rest) := by
  have hv : c.toNat < 55296 ∨ (57343 < c.toNat ∧ c.toNat < 1114112) := c.valid
  unfold utf8EncodeCharN
  by_cases hA : c.toNat < 0x80
  · rw [if_pos hA]
    simp only [List.cons_append, List.nil_append]
    rw [utf8DecodeCharN_ascii _ _ hA, Char.ofNat_toNat]
  · by_cases hB : c.toNat < 0x800
    · rw [if_neg hA, if_pos hB]
      simp only [List.cons_append, List.nil_append]
      rw [utf8DecodeCharN_two _ _ _ (by omega) (by omega) (by omega)]
      have harg : (0xc0 + c.toNat / 64 - 0xc0) * 64 + (0x80 + c.toNat % 64 - 0x80) = c.toNat := by
        omega
      rw [harg, Char.ofNat_toNat]
    · by_cases hC : c.toNat < 0x10000
      · rw [if_neg hA, if_neg hB, if_pos hC]
        simp only [List.cons_append, List.nil_append]
        have harg : (0xe0 + c.toNat / 4096 - 0xe0) * 4096 +
            (0x80 + c.toNat / 64 % 64 - 0x80) * 64 + (0x80 + c.toNat % 64 - 0x80) = c.toNat := by
          omega
        rw [utf8DecodeCharN_three _ _ _ _ (by omega) (by omega) (by omega)
          (by rw [harg]; omega)]
        rw [harg, Char.ofNat_toNat]
      · rw [if_neg hA, if_neg hB, if_neg hC]
        simp only [List.cons_append, List.nil_append]
        have harg : (0xf0 + c.toNat / 262144 - 0xf0) * 262144 +
            (0x80 + c.toNat / 4096 % 64 - 0x80) * 4096 +
            (0x80 + c.toNat / 64 % 64 - 0x80) * 64 + (0x80 + c.toNat % 64 - 0x80) = c.toNat := by
          omega
        rw [utf8DecodeCharN_four _ _ _ _ _ (by omega) (by omega) (by omega) (by omega)
          (by rw [harg]; omega)]
        rw [harg, Char.ofNat_toNat]

theorem utf8EncodeCharN_ne_nil (c : Char) : utf8EncodeCharN c ≠ [] := by
  simp only [utf8EncodeCharN]
  split
  · simp
  · split
    · simp
    · split <;> simp

theorem utf8DecodeGo_encode :
    ∀ (cs : List Char) (fuel : Nat), (cs.flatMap utf8EncodeCharN).length ≤ fuel →
      utf8DecodeGo fuel (cs.flatMap utf8EncodeCharN) = some cs
  | [], fuel, _ => by simp [utf8DecodeGo]
  | c :: cs, fuel, h => by
    rcases henc : utf8EncodeCharN c with _ | ⟨b, bs⟩
    · exact absurd henc (utf8EncodeCharN_ne_nil c)
    · have hlen : 1 ≤ (utf8EncodeCharN c).length := by rw [henc]; simp
      rw [List.flatMap_cons] at h ⊢
      rcases fuel with _ | f
      · exfalso
        rw [List.length_append] at h
        omega
      · have hch := utf8DecodeCharN_encodeCharN c (cs.flatMap utf8EncodeCharN)
        rw [henc] at hch ⊢
        rw [List.cons_append] at hch
        rw [List.cons_append, utf8DecodeGo, hch]
        have hrest : (cs.flatMap utf8EncodeCharN).length ≤ f := by
          rw [List.length_append] at h
          have h2 := hlen
          rw [henc] at h2
          simp only [List.length_cons] at h2
          omega
        simp only [utf8DecodeGo_encode cs f hrest]

theorem utf8Decode?_utf8Str (s : String) : utf8Decode? (utf8Str s) = some s := by
  unfold utf8Decode? utf8Str
  rw [utf8DecodeGo_encode s.data _ (Nat.le_refl _)]

/-! ## Cache codec framing lemmas -/

theorem le64_length (v : Nat) : (le64 v).length = 8 := rfl

theorem deLE_le64 (v : Nat) (h : v < 18446744073709551616) : deLE (le64 v) = v := by
  simp only [le64, deLE, List.foldr]
  omega

theorem readU64_app (v : Nat) (rest : Bytes) (h : v < 18446744073709551616) :
    readU64 (le64 v ++ rest) = some (v, rest) := by
  unfold readU64
  rw [if_pos (by rw [List.length_append, le64_length]; omega)]
  rw [List.take_left' (le64_length v), List.drop_left' (le64_length v), deLE_le64 v h]

theorem readU64_short (l : Bytes) (h : l.length < 8) : readU64 l = none := by
  unfold readU64
  rw [if_neg (by omega)]

theorem writeBytes?_eq (b : Bytes) (p : Bytes) (h : writeBytes? b = some p) :
    b.length < 18446744073709551616 ∧ p = le64 b.length ++ b := by
  by_cases hlen : b.length < 18446744073709551616
  · simp only [writeBytes?, writeU64?, if_pos hlen] at h
    injection h with h1
    exact ⟨hlen, h1.symm⟩
  · simp only [writeBytes?, writeU64?, if_neg hlen] at h
    exact Option.noConfusion h

theorem readBytes_app (b p rest : Bytes) (h : writeBytes? b = some p) :
    readBytes (p ++ rest) = some (b, rest) := by
  obtain ⟨hlen, rfl⟩ := writeBytes?_eq b p h
  rw [List.append_assoc]
  simp only [readBytes, readU64_app _ _ hlen]
  rw [if_pos (by rw [List.length_append]; omega)]
  rw [List.take_left' rfl, List.drop_left' rfl]

theorem readBytes_take (b p : Bytes) (h : writeBytes? b = some p) :
    ∀ k, k < p.length → readBytes (p.take k) = none := by
  obtain ⟨hlen, rfl⟩ := writeBytes?_eq b p h
  intro k hk
  rw [List.length_append, le64_length] at hk
  by_cases hk8 : k < 8
  · simp only [readBytes, readU64_short (List.take k (le64 b.length ++ b))
      (by rw [List.length_take, List.length_append, le64_length]; omega)]
  · rw [List.take_append_eq_append_take, List.take_of_length_le (by rw [le64_length]; omega),
      le64_length]
    simp only [readBytes, readU64_app _ _ hlen]
    rw [if_neg (by rw [List.length_take]; omega)]

theorem encodeEntry?_eq (e : String × BqQuals) (be : Bytes) (h : encodeEntry? e = some be) :
    ∃ nb cbb, writeBytes? (utf8Str e.1) = some nb ∧ writeBytes? e.2.cb = some cbb ∧
      ((∃ u ub, e.2.umi = some u ∧ writeBytes? u = some ub ∧ be = nb ++ cbb ++ 1 :: ub) ∨
        (e.2.umi = none ∧ be = nb ++ cbb ++ [0])) := by
  simp only [encodeEntry?] at h
  split at h
  case h_1 => exact Option.noConfusion h
  case h_2 nb heq1 =>
    split at h
    case h_1 => exact Option.noConfusion h
    case h_2 cbb heq2 =>
      split at h
      case h_1 u hu =>
        split at h
        case h_1 => exact Option.noConfusion h
        case h_2 ub heq3 =>
          injection h with h1
          exact ⟨nb, cbb, heq1, heq2, Or.inl ⟨u, ub, hu, heq3, h1.symm⟩⟩
      case h_2 hu =>
        injection h with h1
        exact ⟨nb, cbb, heq1, heq2, Or.inr ⟨hu, h1.symm⟩⟩

theorem readEntry_app (e : String × BqQuals) (be rest : Bytes) (h : encodeEntry? e = some be) :
    readEntry (be ++ rest) = some (e, rest) := by
  obtain ⟨nb, cbb, h1, h2, hcase⟩ := encodeEntry?_eq e be h
  rcases hcase with ⟨u, ub, hu, h3, rfl⟩ | ⟨hu, rfl⟩
  · simp only [List.append_assoc, List.cons_append]
    simp only [readEntry, readBytes_app _ _ _ h1, readBytes_app _ _ _ h2, readU8,
      if_pos rfl, readBytes_app _ _ _ h3, utf8Decode?_utf8Str]
    rw [← hu]
    rfl
  · simp only [List.append_assoc, List.cons_append]
    simp only [readEntry, readBytes_app _ _ _ h1, readBytes_app _ _ _ h2, readU8,
      utf8Decode?_utf8Str]
    rw [if_neg (by omega)]
    rw [← hu]
    rfl

theorem readEntry_take (e : String × BqQuals) (be : Bytes) (h : encodeEntry? e = some be) :
    ∀ k, k < be.length → readEntry (be.take k) = none := by
  obtain ⟨nb, cbb, h1, h2, hcase⟩ := encodeEntry?_eq e be h
  have hnb8 : 8 ≤ nb.length := by
    obtain ⟨_, rfl⟩ := writeBytes?_eq _ _ h1
    rw [List.length_append, le64_length]; omega
  have hcbb8 : 8 ≤ cbb.length := by
    obtain ⟨_, rfl⟩ := writeBytes?_eq _ _ h2
    rw [List.length_append, le64_length]; omega
  rcases hcase with ⟨u, ub, hu, h3, rfl⟩ | ⟨hu, rfl⟩
  · intro k hk
    simp only [List.length_append, List.length_cons] at hk
    by_cases hka : k < nb.length
    · rw [List.append_assoc, List.take_append_of_le_length (by omega)]
      simp only [readEntry, readBytes_take _ _ h1 k hka]
    · by_cases hkb : k - nb.length < cbb.length
      · rw [List.append_assoc, show k = nb.length + (k - nb.length) from by omega,
          List.take_append, List.take_append_of_le_length (by omega)]
        simp only [readEntry, readBytes_app _ _ _ h1, readBytes_take _ _ h2 _ hkb]
      · by_cases hkc : k - nb.length - cbb.length = 0
        · rw [List.append_assoc, show k = nb.length + (k - nb.length) from by omega,
            List.take_append, show k - nb.length = cbb.length + 0 from by omega,
            List.take_append, List.take_zero]
          simp only [readEntry, readBytes_app _ _ _ h1, readBytes_app _ _ _ h2, readU8]
        · rw [List.append_assoc, show k = nb.length + (k - nb.length) from by omega,
            List.take_append,
            show k - nb.length = cbb.length + (k - nb.length - cbb.length) from by omega,
            List.take_append,
            show k - nb.length - cbb.length = (k - nb.length - cbb.length - 1) + 1 from by omega,
            List.take_succ_cons]
          simp only [readEntry, readBytes_app _ _ _ h1, readBytes_app _ _ _ h2, readU8,
            if_pos rfl, if_true,
            readBytes_take u ub h3 (k - nb.length - cbb.length - 1) (by omega)]
  · intro k hk
    simp only [List.length_append, List.length_cons, List.length_nil] at hk
    by_cases hka : k < nb.length
    · rw [List.append_assoc, List.take_append_of_le_length (by omega)]
      simp only [readEntry, readBytes_take _ _ h1 k hka]
    · by_cases hkb : k - nb.length < cbb.length
      · rw [List.append_assoc, show k = nb.length + (k - nb.length) from by omega,
          List.take_append, List.take_append_of_le_length (by omega)]
        simp only [readEntry, readBytes_app _ _ _ h1, readBytes_take _ _ h2 _ hkb]
      · rw [List.append_assoc, show k = nb.length + (k - nb.length) from by omega,
          List.take_append, show k - nb.length = cbb.length + 0 from by omega,
          List.take_append, List.take_zero]
        simp only [readEntry, readBytes_app _ _ _ h1, readBytes_app _ _ _ h2, readU8]

theorem encodeEntries?_cons (e : String × BqQuals) (es : BqMap) (body : Bytes)
    (h : encodeEntries? (e :: es) = some body) :
    ∃ be rest, encodeEntry? e = some be ∧ encodeEntries? es = some rest ∧ body = be ++ rest := by
  simp only [encodeEntries?] at h
  split at h
  case h_1 => exact Option.noConfusion h
  case h_2 be heq1 =>
    split at h
    case h_1 => exact Option.noConfusion h
    case h_2 rest heq2 =>
      injection h with h1
      exact ⟨be, rest, heq1, heq2, h1.symm⟩

theorem readEntries_app :
    ∀ (es : BqMap) (body rest : Bytes), encodeEntries? es = some body →
      readEntries es.length (body ++ rest) = some (es, rest)
  | [], body, rest, h => by
    simp only [encodeEntries?] at h
    injection h with h1
    subst h1
    rfl
  | e :: es, body, rest, h => by
    obtain ⟨be, b2, h1, h2, rfl⟩ := encodeEntries?_cons e es body h
    rw [List.length_cons, List.append_assoc]
    simp only [readEntries, readEntry_app e be _ h1, readEntries_app es b2 rest h2]

theorem readEntries_take :
    ∀ (es : BqMap) (body : Bytes), encodeEntries? es = some body →
      ∀ k, k < body.length → readEntries es.length (body.take k) = none
  | [], body, h, k, hk => by
    simp only [encodeEntries?] at h
    injection h with h1
    subst h1
    simp at hk
  | e :: es, body, h, k, hk => by
    obtain ⟨be, b2, h1, h2, rfl⟩ := encodeEntries?_cons e es body h
    rw [List.length_append] at hk
    rw [List.length_cons]
    by_cases hka : k < be.length
    · rw [List.take_append_of_le_length (by omega)]
      simp only [readEntries, readEntry_take e be h1 k hka]
    · rw [show k = be.length + (k - be.length) from by omega, List.take_append]
      simp only [readEntries, readEntry_app e be _ h1,
        readEntries_take es b2 h2 (k - be.length) (by omega)]

theorem write_bq_cache_eq (m : BqMap) (bytes : Bytes) (h : write_bq_cache m = some bytes) :
    m.length < 18446744073709551616 ∧ ∃ body, encodeEntries? m = some body ∧
      bytes = BQ_CACHE_MAGIC ++ le64 m.length ++ body := by
  by_cases hlen : m.length < 18446744073709551616
  · simp only [write_bq_cache, writeU64?, if_pos hlen] at h
    rcases heq : encodeEntries? m with _ | body
    · simp only [heq] at h
      exact Option.noConfusion h
    · simp only [heq] at h
      injection h with h1
      exact ⟨hlen, body, rfl, h1.symm⟩
  · simp only [write_bq_cache, writeU64?, if_neg hlen] at h
    exact Option.noConfusion h

theorem BQ_CACHE_MAGIC_length : BQ_CACHE_MAGIC.length = 8 := rfl

theorem read_write_bq_cache (m : BqMap) (bytes extra : Bytes)
    (h : write_bq_cache m = some bytes) :
    read_bq_cache (bytes ++ extra) = some m := by
  obtain ⟨hlen, body, hbody, rfl⟩ := write_bq_cache_eq m bytes h
  simp only [List.append_assoc]
  simp only [read_bq_cache]
  rw [if_pos (by simp [BQ_CACHE_MAGIC])]
  rw [List.take_left' BQ_CACHE_MAGIC_length, if_pos rfl,
    List.drop_left' BQ_CACHE_MAGIC_length, readU64_app _ _ hlen]
  simp only [readEntries_app m body extra hbody]

theorem read_bq_cache_take (m : BqMap) (bytes : Bytes)
    (h : write_bq_cache m = some bytes) :
    ∀ k, k < bytes.length → read_bq_cache (bytes.take k) = none := by
  obtain ⟨hlen, body, hbody, rfl⟩ := write_bq_cache_eq m bytes h
  intro k hk
  simp only [List.length_append, BQ_CACHE_MAGIC_length, le64_length] at hk
  simp only [List.append_assoc]
  by_cases hk8 : k < 8
  · simp only [read_bq_cache]
    rw [if_neg (by rw [List.length_take]; simp [BQ_CACHE_MAGIC]; omega)]
  · by_cases hk16 : k < 16
    · rw [show k = 8 + (k - 8) from by omega,
        show (8 : Nat) = BQ_CACHE_MAGIC.length from rfl, List.take_append]
      simp only [read_bq_cache]
      rw [if_pos (by simp [BQ_CACHE_MAGIC])]
      rw [List.take_left' BQ_CACHE_MAGIC_length, if_pos rfl,
        List.drop_left' BQ_CACHE_MAGIC_length]
      rw [readU64_short _ (by
        rw [List.length_take, List.length_append, le64_length, BQ_CACHE_MAGIC_length]
        omega)]
    · rw [show k = 8 + (k - 8) from by omega,
        show (8 : Nat) = BQ_CACHE_MAGIC.length from rfl, List.take_append,
        show k - BQ_CACHE_MAGIC.length = 8 + (k - 16) from by
          rw [BQ_CACHE_MAGIC_length]; omega,
        show (8 : Nat) = (le64 m.length).length from rfl, List.take_append]
      simp only [read_bq_cache]
      rw [if_pos (by simp [BQ_CACHE_MAGIC])]
      rw [List.take_left' BQ_CACHE_MAGIC_length, if_pos rfl,
        List.drop_left' BQ_CACHE_MAGIC_length, readU64_app _ _ hlen]
      simp only [readEntries_take m body hbody (k - 16) (by omega)]

/-! ## C4 -/

/-- C4: decoding the cache bytes produced by encoding a quality map yields
the map back exactly — the same entry sequence, hence the same key set and
per-key barcode and optional UMI quality bytes.  The encoded map is an
arbitrary entry list, so the statement holds for every iteration order the
hash map could present to the encoder. -/
theorem c4_cache_roundtrip (m : BqMap) (bytes : Bytes)
    (h : write_bq_cache m = some bytes) :
    read_bq_cache bytes = some m ∧
    ∀ k, ((read_bq_cache bytes).getD []).foldl
        (fun acc p => if p.1 = k then some p.2 else acc) none = bqFind? m k := by
  have hmain : read_bq_cache bytes = some m := by
    have h2 := read_write_bq_cache m bytes [] h
    rwa [List.append_nil] at h2
  exact ⟨hmain, fun k => by rw [hmain]; rfl⟩

/-- Witness for c4_cache_roundtrip: the two-entry map of the bq_cache
roundtrip unit test in main.rs encodes to a concrete byte stream that
decodes back to the map. -/
theorem c4_cache_roundtrip_witness :
    write_bq_cache
        [("read1", ⟨[65, 66, 67], some [88, 89, 90]⟩), ("read2", ⟨[81, 81], none⟩)] =
      some (BQ_CACHE_MAGIC ++ le64 2 ++
        (le64 5 ++ [114, 101, 97, 100, 49] ++ le64 3 ++ [65, 66, 67] ++
          (1 :: (le64 3 ++ [88, 89, 90]))) ++
        (le64 5 ++ [114, 101, 97, 100, 50] ++ le64 2 ++ [81, 81] ++ [0])) ∧
    read_bq_cache (BQ_CACHE_MAGIC ++ le64 2 ++
        (le64 5 ++ [114, 101, 97, 100, 49] ++ le64 3 ++ [65, 66, 67] ++
          (1 :: (le64 3 ++ [88, 89, 90]))) ++
        (le64 5 ++ [114, 101, 97, 100, 50] ++ le64 2 ++ [81, 81] ++ [0])) =
      some [("read1", ⟨[65, 66, 67], some [88, 89, 90]⟩), ("read2", ⟨[81, 81], none⟩)] := by
  constructor
  · rfl
  · exact (c4_cache_roundtrip
      [("read1", ⟨[65, 66, 67], some [88, 89, 90]⟩), ("read2", ⟨[81, 81], none⟩)]
      _ (by rfl)).1

/-! ## C7 -/

/-- C7 counterexample: a stream whose entry-count field is 0 but which is
followed by one complete well-formed entry (so the count field does not
match the number of following entries — there is one too many) decodes
successfully to the empty map instead of failing: read_bq_cache stops after
the declared count and ignores trailing bytes. -/
theorem c7_counterexample :
    readEntry (le64 2 ++ [114, 49] ++ le64 1 ++ [65] ++ [0]) =
      some (("r1", ⟨[65], none⟩), []) ∧
    read_bq_cache (BQ_CACHE_MAGIC ++ le64 0 ++
        (le64 2 ++ [114, 49] ++ le64 1 ++ [65] ++ [0])) = some [] :=
  ⟨rfl, rfl⟩

/-- C7 (amended): cache decode fails when the stream is shorter than 8
bytes or its first 8 bytes differ from the magic; it fails on a short read
at any point — every strict prefix of a validly encoded stream decodes to
none, which covers an entry count larger than the number of following
entries; it fails when a name field is not valid UTF-8; but an entry count
smaller than the data that follows is not detected: any bytes after the
declared number of entries are ignored and decoding succeeds. -/
theorem c7_decode_failures :
    (∀ l : Bytes, l.length < 8 ∨ l.take 8 ≠ BQ_CACHE_MAGIC → read_bq_cache l = none) ∧
    (∀ (m : BqMap) (bytes : Bytes), write_bq_cache m = some bytes →
      ∀ k, k < bytes.length → read_bq_cache (bytes.take k) = none) ∧
    (∀ nb cb : Bytes, utf8Decode? nb = none →
      nb.length < 18446744073709551616 → cb.length < 18446744073709551616 →
      read_bq_cache (BQ_CACHE_MAGIC ++ le64 1 ++ (le64 nb.length ++ nb) ++
        (le64 cb.length ++ cb) ++ [0]) = none) ∧
    (∀ (m : BqMap) (bytes extra : Bytes), write_bq_cache m = some bytes →
      read_bq_cache (bytes ++ extra) = some m) := by
  refine ⟨fun l h => ?_, read_bq_cache_take, fun nb cb hdec hnb hcb => ?_,
    read_write_bq_cache⟩
  · simp only [read_bq_cache]
    by_cases h8 : 8 ≤ l.length
    · rcases h with h | h
      · omega
      · rw [if_pos h8, if_neg h]
    · rw [if_neg h8]
  · have hwn : writeBytes? nb = some (le64 nb.length ++ nb) := by
      simp [writeBytes?, writeU64?, hnb]
    have hwc : writeBytes? cb = some (le64 cb.length ++ cb) := by
      simp [writeBytes?, writeU64?, hcb]
    generalize hgn : le64 nb.length ++ nb = pn at hwn ⊢
    generalize hgc : le64 cb.length ++ cb = pc at hwc ⊢
    simp only [List.append_assoc]
    simp only [read_bq_cache]
    rw [if_pos (by simp [BQ_CACHE_MAGIC])]
    rw [List.take_left' BQ_CACHE_MAGIC_length, if_pos rfl,
      List.drop_left' BQ_CACHE_MAGIC_length, readU64_app _ _ (by omega)]
    simp only [readEntries, readEntry, readBytes_app _ _ _ hwn, readBytes_app _ _ _ hwc,
      readU8]
    rw [if_neg (by omega : ¬(0 : Nat) = 1)]
    simp only [hdec]

/-- Witness for c7_decode_failures at concrete inputs: a wrong-magic stream
fails, a one-byte truncation of a valid one-entry stream fails, and a
stream whose single entry has the non-UTF-8 name byte 255 fails. -/
theorem c7_decode_failures_witness :
    read_bq_cache [0, 0, 0, 0, 0, 0, 0, 0, 0] = none ∧
    read_bq_cache ((BQ_CACHE_MAGIC ++ le64 1 ++ le64 2 ++ [114, 49] ++ le64 1 ++ [65] ++
      [0]).take 34) = none ∧
    read_bq_cache (BQ_CACHE_MAGIC ++ le64 1 ++ (le64 1 ++ [255]) ++ (le64 1 ++ [73]) ++ [0]) =
      none := by
  refine ⟨c7_decode_failures.1 _ (Or.inr (by decide)), ?_, ?_⟩
  · exact c7_decode_failures.2.1 [("r1", ⟨[65], none⟩)] _ (by rfl) 34 (by decide)
  · exact c7_decode_failures.2.2.1 [255] [73] (by rfl) (by decide) (by decide)

/-! ## BQ token support lemmas -/

theorem getLast?_cons_or {α : Type} (a : α) (l : List α) :
    (a :: l).getLast? = l.getLast?.or (some a) := by
  cases l with
  | nil => rfl
  | cons b t =>
    rw [List.getLast?_cons_cons]
    cases h : (b :: t).getLast? with
    | none => simp at h
    | some x => simp

theorem lastLabelValue?_single_some (p : String) (l v : String) (lbl : String)
    (hsp : splitOnceColon? p = some (l, v)) :
    lastLabelValue? [p] lbl = if l = lbl then some v else none := by
  by_cases h : l = lbl <;> simp [lastLabelValue?, hsp, h]

theorem lastLabelValue?_single_none (p : String) (lbl : String)
    (hsp : splitOnceColon? p = none) :
    lastLabelValue? [p] lbl = none := by
  simp [lastLabelValue?, hsp]

theorem lastLabelValue?_cons (p : String) (ps : List String) (lbl : String) :
    lastLabelValue? (p :: ps) lbl = (lastLabelValue? ps lbl).or (lastLabelValue? [p] lbl) := by
  cases hsp : splitOnceColon? p with
  | none =>
    rw [lastLabelValue?_single_none p lbl hsp, Option.or_none]
    simp [lastLabelValue?, List.filterMap_cons, hsp]
  | some pr =>
    obtain ⟨l, v⟩ := pr
    rw [lastLabelValue?_single_some p l v lbl hsp]
    by_cases h : l = lbl
    · rw [if_pos h]
      simp only [lastLabelValue?, List.filterMap_cons, hsp]
      rw [List.filter_cons, if_pos (by simp [h]), getLast?_cons_or, Option.map_or']
      rfl
    · rw [if_neg h, Option.or_none]
      simp only [lastLabelValue?, List.filterMap_cons, hsp]
      rw [List.filter_cons, if_neg (by simp [h])]

theorem bqStep_fields (acc : BqFold) (p : String) :
    (bqStep acc p).i7 = (lastLabelValue? [p] "i7").or acc.i7 ∧
    (bqStep acc p).i5 = (lastLabelValue? [p] "i5").or acc.i5 ∧
    (bqStep acc p).cbc = (lastLabelValue? [p] "CBC").or acc.cbc ∧
    (bqStep acc p).umi = (lastLabelValue? [p] "UMI").or acc.umi := by
  cases hsp : splitOnceColon? p with
  | none =>
    simp [bqStep, hsp, lastLabelValue?_single_none p _ hsp]
  | some pr =>
    obtain ⟨l, v⟩ := pr
    rw [lastLabelValue?_single_some p l v _ hsp, lastLabelValue?_single_some p l v _ hsp,
      lastLabelValue?_single_some p l v _ hsp, lastLabelValue?_single_some p l v _ hsp]
    simp only [bqStep, hsp]
    by_cases h1 : l = "i7" <;> by_cases h2 : l = "i5" <;> by_cases h3 : l = "CBC" <;>
      by_cases h4 : l = "UMI" <;> simp_all

theorem foldl_bqStep_fields :
    ∀ (ps : List String) (acc : BqFold),
      (ps.foldl bqStep acc).i7 = (lastLabelValue? ps "i7").or acc.i7 ∧
      (ps.foldl bqStep acc).i5 = (lastLabelValue? ps "i5").or acc.i5 ∧
      (ps.foldl bqStep acc).cbc = (lastLabelValue? ps "CBC").or acc.cbc ∧
      (ps.foldl bqStep acc).umi = (lastLabelValue? ps "UMI").or acc.umi
  | [], acc => by simp [lastLabelValue?]
  | p :: ps, acc => by
    rw [List.foldl_cons]
    obtain ⟨h7, h5, hc, hu⟩ := foldl_bqStep_fields ps (bqStep acc p)
    obtain ⟨g7, g5, gc, gu⟩ := bqStep_fields acc p
    have key : ∀ (lbl : String) (x : Option String),
        (lastLabelValue? ps lbl).or ((lastLabelValue? [p] lbl).or x) =
          (lastLabelValue? (p :: ps) lbl).or x := by
      intro lbl x
      rw [lastLabelValue?_cons p ps lbl, Option.or_assoc]
    rw [h7, h5, hc, hu, g7, g5, gc, gu]
    exact ⟨key "i7" acc.i7, key "i5" acc.i5, key "CBC" acc.cbc, key "UMI" acc.umi⟩

theorem utf8Str_append (a b : String) : utf8Str (a ++ b) = utf8Str a ++ utf8Str b := by
  simp [utf8Str, String.data_append]

/-! ## C6 -/

/-- C6: parse_bq_token returns no entry when the header carries no BQ
marker; otherwise the token after the marker is split on semicolons, pieces
without a colon are skipped, labels other than i7, i5, CBC, UMI are
ignored, and an entry is produced exactly when values for i7, i5 and CBC
were all found, with barcode_quality the byte-level concatenation of the
i7, i5 and CBC values in that fixed order and umi_quality the UMI value
when found, absent otherwise (duplicate labels resolve to the last
occurrence, matching the assignment loop). -/
theorem c6_token_grammar (header : String) :
    (afterMarker? header = none → parse_bq_token header = none) ∧
    (∀ suffix, afterMarker? header = some suffix →
      parse_bq_token header =
        match
          lastLabelValue? (splitOnCharS ';' ((splitWhitespaceNext? suffix).getD suffix)) "i7",
          lastLabelValue? (splitOnCharS ';' ((splitWhitespaceNext? suffix).getD suffix)) "i5",
          lastLabelValue? (splitOnCharS ';' ((splitWhitespaceNext? suffix).getD suffix)) "CBC"
          with
        | some a, some b, some c =>
          some ⟨utf8Str a ++ utf8Str b ++ utf8Str c,
            (lastLabelValue?
              (splitOnCharS ';' ((splitWhitespaceNext? suffix).getD suffix)) "UMI").map utf8Str⟩
        | _, _, _ => none) := by
  refine ⟨fun h => by simp only [parse_bq_token, h], fun suffix h => ?_⟩
  simp only [parse_bq_token, h]
  obtain ⟨h7, h5, hc, hu⟩ := foldl_bqStep_fields
    (splitOnCharS ';' ((splitWhitespaceNext? suffix).getD suffix)) ⟨none, none, none, none⟩
  simp only [h7, h5, hc, hu, Option.or_none, utf8Str_append]

/-- Witness for c6_token_grammar at concrete inputs: a header whose token
mixes an unrecognized label and a colon-free piece still produces the entry
from i7, i5 and CBC, and a header without the marker produces none. -/
theorem c6_token_grammar_witness :
    parse_bq_token "r|BQ:i7:1;foo:9;bad;i5:2;CBC:3 x" = some ⟨[49, 50, 51], none⟩ ∧
    parse_bq_token "no marker here" = none := by
  constructor
  · have h := (c6_token_grammar "r|BQ:i7:1;foo:9;bad;i5:2;CBC:3 x").2
      "i7:1;foo:9;bad;i5:2;CBC:3 x" (by rfl)
    rw [h]
    rfl
  · exact (c6_token_grammar "no marker here").1 (by rfl)

/-! ## C5 support -/

theorem splitFirst?_colon_none :
    ∀ (l : List Char), (∀ c ∈ l, c ≠ ':') → splitFirst? [':'] l = none
  | [], _ => rfl
  | c :: t, h => by
    have hc : c ≠ ':' := h c (List.mem_cons_self c t)
    simp only [splitFirst?]
    rw [if_neg (by simp [List.isPrefixOf]; intro hh; exact absurd hh.symm hc)]
    rw [splitFirst?_colon_none t (fun d hd => h d (List.mem_cons_of_mem c hd))]

theorem splitCharList_chars (sep : Char) :
    ∀ (l : List Char), ∀ piece ∈ splitCharList sep l, ∀ c ∈ piece, c ∈ l
  | [], piece, hp, c, hc => by
    simp only [splitCharList, List.mem_singleton] at hp
    subst hp
    exact absurd hc (List.not_mem_nil c)
  | x :: t, piece, hp, c, hc => by
    simp only [splitCharList] at hp
    rcases hrec : splitCharList sep t with _ | ⟨hh, r⟩
    · rw [hrec] at hp
      simp only [List.mem_singleton] at hp
      subst hp
      exact absurd hc (List.not_mem_nil c)
    · rw [hrec] at hp
      dsimp only at hp
      by_cases hx : x = sep
      · rw [if_pos hx, List.mem_cons] at hp
        rcases hp with hp | hp
        · subst hp; exact absurd hc (List.not_mem_nil c)
        · exact List.mem_cons_of_mem x
            (splitCharList_chars sep t piece (by rw [hrec]; exact hp) c hc)
      · rw [if_neg hx, List.mem_cons] at hp
        rcases hp with hp | hp
        · subst hp
          rw [List.mem_cons] at hc
          rcases hc with hc | hc
          · exact hc ▸ List.mem_cons_self x t
          · exact List.mem_cons_of_mem x
              (splitCharList_chars sep t hh (by rw [hrec]; exact List.mem_cons_self hh r) c hc)
        · exact List.mem_cons_of_mem x
            (splitCharList_chars sep t piece (by rw [hrec]; exact List.mem_cons_of_mem hh hp) c hc)

/-! ## C5 -/

/-- C5 counterexample: in the header r|BQ: i7:A;i5:B;CBC:C a whitespace
character immediately follows the marker, so the substring from the marker
to the next whitespace character is empty and the claim predicts no entry;
but parse_bq_token skips the leading whitespace, takes the next word as the
token and produces an entry with barcode quality ABC. -/
theorem c5_counterexample :
    afterMarker? "r|BQ: i7:A;i5:B;CBC:C" = some " i7:A;i5:B;CBC:C" ∧
    (" i7:A;i5:B;CBC:C".data.takeWhile (fun c => !rustIsWhitespace c)) = [] ∧
    parse_bq_token "r|BQ: i7:A;i5:B;CBC:C" = some ⟨[65, 66, 67], none⟩ :=
  ⟨rfl, rfl, rfl⟩

/-- C5 (amended): the token is taken from the suffix after the first
occurrence of the marker as the first maximal run of non-whitespace
characters, skipping leading whitespace — the suffix splits as whitespace
prefix, the nonempty whitespace-free token, and a remainder that is empty
or starts with whitespace.  When the suffix is empty or all whitespace
there is no such word and the token is the suffix itself; in that case the
token contains no colon, so no entry is produced. -/
theorem c5_token_extraction :
    (∀ s : String, s.data.dropWhile rustIsWhitespace = [] →
      (splitWhitespaceNext? s).getD s = s) ∧
    (∀ s : String, s.data.dropWhile rustIsWhitespace ≠ [] →
      ∃ pre tok post : List Char,
        s.data = pre ++ tok ++ post ∧
        (∀ c ∈ pre, rustIsWhitespace c = true) ∧
        tok ≠ [] ∧
        (∀ c ∈ tok, rustIsWhitespace c = false) ∧
        (post = [] ∨ ∃ d t2, post = d :: t2 ∧ rustIsWhitespace d = true) ∧
        (splitWhitespaceNext? s).getD s = String.mk tok) ∧
    (∀ header suffix : String, afterMarker? header = some suffix →
      (∀ c ∈ suffix.data, rustIsWhitespace c = true) →
      parse_bq_token header = none) := by
  refine ⟨fun s h => by simp [splitWhitespaceNext?, h], fun s h => ?_, ?_⟩
  · refine ⟨s.data.takeWhile rustIsWhitespace,
      (s.data.dropWhile rustIsWhitespace).takeWhile (fun c => !rustIsWhitespace c),
      (s.data.dropWhile rustIsWhitespace).dropWhile (fun c => !rustIsWhitespace c),
      ?_, ?_, ?_, ?_, ?_, ?_⟩
    · rw [List.append_assoc, List.takeWhile_append_dropWhile, List.takeWhile_append_dropWhile]
    · exact fun c hc => List.mem_takeWhile_imp hc
    · rcases hD : s.data.dropWhile rustIsWhitespace with _ | ⟨d, t2⟩
      · exact absurd hD h
      · have hd : rustIsWhitespace d = false := by
          have hh := List.head?_dropWhile_not rustIsWhitespace s.data
          rw [hD] at hh
          simpa using hh
        simp [List.takeWhile_cons, hd]
    · intro c hc
      have hh := List.mem_takeWhile_imp hc
      simpa using hh
    · rcases hP : (s.data.dropWhile rustIsWhitespace).dropWhile
          (fun c => !rustIsWhitespace c) with _ | ⟨d, t2⟩
      · exact Or.inl rfl
      · refine Or.inr ⟨d, t2, rfl, ?_⟩
        have hh := List.head?_dropWhile_not (fun c => !rustIsWhitespace c)
          (s.data.dropWhile rustIsWhitespace)
        rw [hP] at hh
        simpa using hh
    · simp only [splitWhitespaceNext?]
      rcases hD : s.data.dropWhile rustIsWhitespace with _ | ⟨d, t2⟩
      · exact absurd hD h
      · rfl
  · intro header suffix hmark hws
    have hdrop : suffix.data.dropWhile rustIsWhitespace = [] :=
      List.dropWhile_eq_nil_iff.mpr fun c hc => hws c hc
    have htok : (splitWhitespaceNext? suffix).getD suffix = suffix := by
      simp [splitWhitespaceNext?, hdrop]
    have hnone : ∀ p ∈ splitOnCharS ';' suffix, splitOnceColon? p = none := by
      intro p hpmem
      simp only [splitOnCharS, List.mem_map] at hpmem
      obtain ⟨piece, hpc, rfl⟩ := hpmem
      simp only [splitOnceColon?]
      rw [splitFirst?_colon_none piece fun c hc hceq => by
          have hwc := hws c (splitCharList_chars ';' suffix.data piece hpc c hc)
          rw [hceq] at hwc
          exact absurd hwc (by decide)]
    have hflt : List.filterMap splitOnceColon? (splitOnCharS ';' suffix) = [] :=
      List.filterMap_eq_nil_iff.mpr hnone
    have hlbl : ∀ lbl, lastLabelValue? (splitOnCharS ';' suffix) lbl = none := by
      intro lbl
      simp [lastLabelValue?, hflt]
    obtain ⟨h7, h5, hc2, hu⟩ :=
      foldl_bqStep_fields (splitOnCharS ';' suffix) ⟨none, none, none, none⟩
    simp only [parse_bq_token, hmark, htok, h7, h5, hc2, hu, hlbl, Option.none_or]

/-- Witness for c5_token_extraction at concrete inputs: a suffix with
leading whitespace splits into whitespace, word and remainder with the word
as token, and a header whose marker is followed only by whitespace produces
no entry. -/
theorem c5_token_extraction_witness :
    (∃ pre tok post : List Char,
      ("  abc d" : String).data = pre ++ tok ++ post ∧
      (∀ c ∈ pre, rustIsWhitespace c = true) ∧
      tok ≠ [] ∧
      (∀ c ∈ tok, rustIsWhitespace c = false) ∧
      (post = [] ∨ ∃ d t2, post = d :: t2 ∧ rustIsWhitespace d = true) ∧
      (splitWhitespaceNext? "  abc d").getD "  abc d" = String.mk tok) ∧
    parse_bq_token "r|BQ:  " = none :=
  ⟨c5_token_extraction.2.1 "  abc d" (by decide),
   c5_token_extraction.2.2 "r|BQ:  " "  " rfl (by decide)⟩
